import Mathlib

/-!
Shallow embedding of `src/python/funcs/root_cause_discovery_funcs.py`.

Modelling conventions:
* Real (float) arithmetic is idealised by exact rational arithmetic (`ℚ`),
  except where IEEE special values are the very subject of a claim: the
  margin statistic `(s₁ − s₂) / s₂` and the post-sweep fallback arithmetic
  are modelled on the type `EF` (`nan`, `±∞`, or a finite rational), with
  the IEEE rules for division by zero and for comparisons with `nan`.
* `random.shuffle` is modelled by an explicit shuffle oracle
  `sh : ℕ → List ℕ → List ℕ` (the counter is bumped at every call so that
  successive calls may shuffle differently); theorems about permutation
  generation assume only that the oracle permutes its input.
* Numerical library routines whose output is not rational-valued
  (`ShrunkCovariance`, `LA.eigvals`, `LA.cholesky`, `np.linalg.solve`) are
  abstracted into a `NumOracle` record of uninterpreted functions; the
  surrounding control flow is translated concretely.
* Python `assert` failures and uncaught exceptions are modelled by `none`
  of an `Option` result where a claim depends on them.
-/

/-- Extended value: a finite rational, `±∞`, or `nan`.  Used exactly where
the Python code can produce IEEE special values that a claim talks about. -/
inductive EF where
  | nan : EF
  | negInf : EF
  | posInf : EF
  | fin : ℚ → EF
deriving DecidableEq

/-- IEEE `<` on extended values: every comparison with `nan` is false. -/
def EF.lt : EF → EF → Bool
  | .nan, _ => false
  | _, .nan => false
  | .negInf, .negInf => false
  | .negInf, _ => true
  | .posInf, _ => false
  | .fin _, .negInf => false
  | .fin _, .posInf => true
  | .fin a, .fin b => decide (a < b)

/-- IEEE division on extended values (signed zeros are not modelled; a
finite value divided by zero gives `±∞` by the sign of the numerator,
`0/0` gives `nan`). -/
def EF.div : EF → EF → EF
  | .nan, _ => .nan
  | .fin a, .fin b =>
      if b = 0 then (if 0 < a then .posInf else if a < 0 then .negInf else .nan)
      else .fin (a / b)
  | .fin _, .posInf => .fin 0
  | .fin _, .negInf => .fin 0
  | .posInf, .fin b => if 0 ≤ b then .posInf else .negInf
  | .negInf, .fin b => if 0 ≤ b then .negInf else .posInf
  | _, _ => .nan

def EF.isNan : EF → Bool
  | .nan => true
  | _ => false

/-- Pairwise minimum with `nan` propagation, as in `np.minimum`. -/
def EF.min2 (a b : EF) : EF :=
  if a.isNan || b.isNan then .nan else if EF.lt a b then a else b

/-- `np.min` over a list of extended values (the empty case never occurs in
the translated code paths: every use is behind a non-emptiness guard). -/
def efMinList : List EF → EF
  | [] => .nan
  | x :: xs => xs.foldl EF.min2 x

/-- `np.max` over a list of rationals (callers guard non-emptiness). -/
def qMaxList : List ℚ → ℚ
  | [] => 0
  | x :: xs => xs.foldl max x

/-- Tail of `np.argmax`: `bi`/`bv` are the index and value of the current
maximum, `i` the index of the head of the remaining list. -/
def idxOfMaxGo : List ℚ → ℕ → ℕ → ℚ → ℕ
  | [], _, bi, _ => bi
  | x :: xs, i, bi, bv =>
      if bv < x then idxOfMaxGo xs (i + 1) i x else idxOfMaxGo xs (i + 1) bi bv

/-- `np.argmax`: first index of the maximal entry. -/
def idxOfMax : List ℚ → ℕ
  | [] => 0
  | x :: xs => idxOfMaxGo xs 1 0 x

/-- Python `sorted` on a rational vector. -/
def sortedAsc (l : List ℚ) : List ℚ := List.insertionSort (· ≤ ·) l

/-- Comparison of positions of `l` by their values; used to model
`np.argsort`. -/
def argRel (l : List ℕ) (i j : ℕ) : Prop := l.getD i 0 ≤ l.getD j 0

instance (l : List ℕ) (i j : ℕ) : Decidable (argRel l i j) :=
  Nat.decLe _ _

instance (l : List ℕ) : IsTotal ℕ (argRel l) :=
  ⟨fun _ _ => le_total _ _⟩

instance (l : List ℕ) : IsTrans ℕ (argRel l) :=
  ⟨fun _ _ _ h h2 => le_trans h h2⟩

/-- `np.argsort` of an integer vector: the positions `0, …, len−1` sorted
by their values. -/
def argsort (l : List ℕ) : List ℕ :=
  List.insertionSort (argRel l) (List.range l.length)

/-- `np.arange(start, stop, step)` under exact arithmetic:
`start + k·step` for `k < ⌈(stop − start)/step⌉`. -/
def arange (start stop step : ℚ) : List ℚ :=
  (List.range (Int.ceil ((stop - start) / step)).toNat).map
    (fun k : ℕ => start + (k : ℚ) * step)

/-- `np.sum(z_vec >= threshold)`. -/
def countGe (z : List ℚ) (t : ℚ) : ℕ := (z.filter (fun x => decide (t ≤ x))).length

/-- `np.sum(z_vec <= threshold)`. -/
def countLe (z : List ℚ) (t : ℚ) : ℕ := (z.filter (fun x => decide (x ≤ t))).length

/-- The filtering loop of `get_aberrant_thresholds`: keep a threshold iff
some z-score is ≥ it and the count of z-scores ≤ it differs from the count
recorded for the previously kept threshold (`ct` starts at `-1`). -/
def gatGo (z : List ℚ) : List ℚ → ℤ → List ℚ
  | [], _ => []
  | t :: rest, ct =>
      if 0 < countGe z t then
        if (countLe z t : ℤ) ≠ ct then t :: gatGo z rest (countLe z t)
        else gatGo z rest ct
      else gatGo z rest ct

/-- `get_aberrant_thresholds` (lines 12–22 of the source). -/
def get_aberrant_thresholds (z : List ℚ) (thre_min thre_max thre_seq : ℚ) : List ℚ :=
  gatGo z (arange thre_min thre_max thre_seq) (-1)

/-- Mean of column `j` of `X` (`np.mean(X, axis=0)` entrywise). -/
def colMeanAt (X : List (List ℚ)) (j : ℕ) : ℚ :=
  ((X.map (fun r => r.getD j 0)).sum) / (X.length : ℚ)

/-- Sample variance (`ddof=1`) of column `j` of `X`. -/
def colVarAt (X : List (List ℚ)) (j : ℕ) : ℚ :=
  ((X.map (fun r => (r.getD j 0 - colMeanAt X j) ^ 2)).sum) / ((X.length : ℚ) - 1)

/-- `zscore_vec` (lines 42–50): the code computes `(|xᵢ − μᵢ| / σᵢ)²` with
`σᵢ` the sample standard deviation; under exact arithmetic this equals
`(xᵢ − μᵢ)² / σᵢ²`, which keeps the definition rational-valued.  (A zero
observational variance, which makes the Python value non-finite, is outside
every claim's scope.) -/
def zscore_vec (X_obs : List (List ℚ)) (X_int : List ℚ) : List ℚ :=
  (List.range X_int.length).map
    (fun i => (X_int.getD i 0 - colMeanAt X_obs i) ^ 2 / colVarAt X_obs i)

/-- Aberrant index set `{i : z_i > threshold}` in increasing order
(`compute_permutations`, line 56). -/
def idx_abberent (z : List ℚ) (threshold : ℚ) : List ℕ :=
  (List.range z.length).filter (fun i => decide (threshold < z.getD i 0))

/-- Normal index set: the complement of the aberrant set.  The Python code
builds it as `list(set(range(len(z))) - set(idx_abberent))`, which for small
natural numbers enumerates in increasing order, i.e. equals this filter. -/
def idx_normal (z : List ℚ) (threshold : ℚ) : List ℕ :=
  (List.range z.length).filter (fun i => ! decide (threshold < z.getD i 0))

/-- Python's simultaneous swap `l[i], l[j] = l[j], l[i]`. -/
def swapPos (l : List ℕ) (i j : ℕ) : List ℕ :=
  (l.set i (l.getD j 0)).set j (l.getD i 0)

/-- Inner loop of `compute_permutations` (lines 63–69) for one target:
runs `nshuffles` trials, threading the shuffle counter and the in-place
mutated `idx_normal` / `idx_abberent` lists, and returns the final state
together with the emitted permutations in order. -/
def cpInner (sh : ℕ → List ℕ → List ℕ) (target : ℕ) :
    ℕ → ℕ × List ℕ × List ℕ → (ℕ × List ℕ × List ℕ) × List (List ℕ)
  | 0, st => (st, [])
  | t + 1, (ctr, nrm, ab) =>
      let nrm2 := sh ctr nrm
      let ab2 := sh (ctr + 1) ab
      let ab3 := swapPos ab2 0 (ab2.indexOf target)
      let rest := cpInner sh target t (ctr + 2, nrm2, ab3)
      (rest.1, (nrm2 ++ ab3) :: rest.2)

/-- Outer loop of `compute_permutations` over the positions `i` of
`idx_abberent_copy` (the unshuffled aberrant list `abCopy`). -/
def cpOuter (sh : ℕ → List ℕ → List ℕ) (abCopy : List ℕ) (k : ℕ) :
    List ℕ → ℕ × List ℕ × List ℕ → List (List ℕ)
  | [], _ => []
  | i :: rest, st =>
      let r := cpInner sh (abCopy.getD i 0) k st
      r.2 ++ cpOuter sh abCopy k rest r.1

/-- `compute_permutations` (lines 54–70), with the shuffle oracle `sh`
standing for `random.shuffle`. -/
def compute_permutations (sh : ℕ → List ℕ → List ℕ) (z : List ℚ)
    (threshold : ℚ) (nshuffles : ℕ) : List (List ℕ) :=
  cpOuter sh (idx_abberent z threshold) nshuffles
    (List.range (idx_abberent z threshold).length)
    (0, idx_normal z threshold, idx_abberent z threshold)

/-- Uninterpreted numerical library routines used by
`root_cause_discovery`: the shrinkage covariance estimator, the minimum
eigenvalue, the Cholesky factor, and the triangular solve. -/
structure NumOracle where
  shrunk : List (List ℚ) → List (List ℚ)
  minEig : List (List ℚ) → ℚ
  chol : List (List ℚ) → List (List ℚ)
  solve : List (List ℚ) → List ℚ → List ℚ

/-- `np.cov(X.transpose())`: sample covariance (`ddof=1`) of the columns
of `X`. -/
def covMatrix (X : List (List ℚ)) : List (List ℚ) :=
  let p := (X.headD []).length
  (List.range p).map (fun i => (List.range p).map (fun j =>
    ((X.map (fun r => (r.getD i 0 - colMeanAt X i) * (r.getD j 0 - colMeanAt X j))).sum)
      / ((X.length : ℚ) - 1)))

/-- numpy broadcast `M + c`: the scalar is added to EVERY entry. -/
def addScalar (c : ℚ) (M : List (List ℚ)) : List (List ℚ) :=
  M.map (fun r => r.map (fun x => x + c))

/-- Positive-definiteness repair (lines 94–96): when the minimum eigenvalue
`m` is below `1e-6`, `sigma = sigma + abs(m) + 1e-6` adds the scalar to
every entry by numpy broadcasting; otherwise the matrix is unchanged. -/
def repair_covariance (m : ℚ) (sigma : List (List ℚ)) : List (List ℚ) :=
  if m < 1 / 1000000 then addScalar (|m| + 1 / 1000000) sigma else sigma

/-- Covariance estimate (lines 86–91): the sample covariance when
`n > p`, otherwise the shrinkage estimator from the oracle. -/
def sigma_est (o : NumOracle) (n p : ℕ) (X_obs_perm : List (List ℚ)) : List (List ℚ) :=
  if p < n then covMatrix X_obs_perm else o.shrunk X_obs_perm

/-- The whitened residual in permuted order: the solution of
`L·z̃ = X_int_perm − mu` (lines 82–100), before the permutation is undone. -/
def whitened (o : NumOracle) (X_obs : List (List ℚ)) (X_int : List ℚ)
    (perm : List ℕ) : List ℚ :=
  let n := X_obs.length
  let p := (X_obs.headD []).length
  let X_obs_perm := X_obs.map (fun r => perm.map (fun j => r.getD j 0))
  let X_int_perm := perm.map (fun j => X_int.getD j 0)
  let mu := (List.range perm.length).map (fun j => colMeanAt X_obs_perm j)
  let sigma := sigma_est o n p X_obs_perm
  let L := o.chol (repair_covariance (o.minEig sigma) sigma)
  o.solve L (List.zipWith (· - ·) X_int_perm mu)

/-- `root_cause_discovery` (lines 75–103).  The two `assert`s are modelled
by `none`; on success the whitened residual is re-indexed by
`perm.argsort()` (undoing the permutation) and returned entrywise in
absolute value. -/
def root_cause_discovery (o : NumOracle) (X_obs : List (List ℚ))
    (X_int : List ℚ) (perm : List ℕ) : Option (List ℚ) :=
  let p := (X_obs.headD []).length
  if X_int.length = p ∧ List.insertionSort (· ≤ ·) perm = List.range p then
    some ((argsort perm).map (fun k => |(whitened o X_obs X_int perm).getD k 0|))
  else none

/-- Last element of a sorted vector (`sorted_X[-1]`). -/
def sLast (l : List ℚ) : ℚ := l.getD (l.length - 1) 0

/-- Second-to-last element of a sorted vector (`sorted_X[-2]`).  (Python
raises on a vector of length < 2; every modelled call has length ≥ 2.) -/
def sPen (l : List ℚ) : ℚ := l.getD (l.length - 2) 0

/-- The margin statistic `(sorted_X[-1] - sorted_X[-2]) / sorted_X[-2]`,
with IEEE semantics when the second largest value is zero. -/
def margin_stat (Xt : List ℚ) : EF :=
  EF.div (EF.fin (sLast (sortedAsc Xt) - sPen (sortedAsc Xt)))
    (EF.fin (sPen (sortedAsc Xt)))

/-- One iteration of the permutation loop of `root_cause_discovery_main`
(lines 123–129): store the margin statistic at the arg-max variable when it
beats the recorded score. -/
def update_score (scores : List EF) (Xt : List ℚ) : List EF :=
  if EF.lt (scores.getD (idxOfMax Xt) EF.nan) (margin_stat Xt) then
    scores.set (idxOfMax Xt) (margin_stat Xt)
  else scores

/-- The threshold/permutation sweep of `root_cause_discovery_main`
(lines 116–129), accumulating `root_cause_score` from the zero vector. -/
def sweep_scores (o : NumOracle) (sh : ℕ → List ℕ → List ℕ)
    (X_obs : List (List ℚ)) (X_int : List ℚ) (nshuffles : ℕ)
    (thresholds : List ℚ) (z : List ℚ) : List EF :=
  thresholds.foldl
    (fun sc t =>
      (compute_permutations sh z t nshuffles).foldl
        (fun sc2 perm => update_score sc2 ((root_cause_discovery o X_obs X_int perm).getD []))
        sc)
    (List.replicate (X_obs.headD []).length (EF.fin 0))

/-- `idx2 = np.where(root_cause_score == 0)[0]`: positions whose recorded
score is exactly zero. -/
def zeroIdx (scores : List EF) : List ℕ :=
  (List.range scores.length).filter (fun i => decide (scores.getD i EF.nan = EF.fin 0))

/-- `idx1 = np.where(root_cause_score != 0)[0]`. -/
def nonzeroIdx (scores : List EF) : List ℕ :=
  (List.range scores.length).filter (fun i => ! decide (scores.getD i EF.nan = EF.fin 0))

/-- The fallback assignment shared by lines 134–136 and 242–244: variables
with score exactly zero get `z[i] / (max(z[idx2]) / (min(score[idx1]) / 2))`,
the others keep their score. -/
def fallback_scores (scores : List EF) (z : List ℚ) : List EF :=
  let m2 := EF.div (efMinList ((nonzeroIdx scores).map (fun i => scores.getD i EF.nan)))
    (EF.fin 2)
  let mz := qMaxList ((zeroIdx scores).map (fun i => z.getD i 0))
  (List.range scores.length).map (fun i =>
    if scores.getD i EF.nan = EF.fin 0 then
      EF.div (EF.fin (z.getD i 0)) (EF.div (EF.fin mz) m2)
    else scores.getD i EF.nan)

/-- Post-sweep fallback of `root_cause_discovery_main` (lines 131–137).
When every score is zero, `np.min` is taken over an empty array and the
function dies with a `ValueError`; that crash is modelled by `none`. -/
def apply_fallback (scores : List EF) (z : List ℚ) : Option (List EF) :=
  if zeroIdx scores = [] then some scores
  else if nonzeroIdx scores = [] then none
  else some (fallback_scores scores z)

/-- `root_cause_discovery_main` (lines 107–137, Algo 2).  `thresholds`
is the optional caller-supplied threshold
sequence (`none` selects `get_aberrant_thresholds` as in the code). -/
def root_cause_discovery_main (o : NumOracle) (sh : ℕ → List ℕ → List ℕ)
    (X_obs : List (List ℚ)) (X_int : List ℚ) (nshuffles : ℕ)
    (thresholds : Option (List ℚ)) : Option (List EF) :=
  let z := zscore_vec X_obs X_int
  apply_fallback
    (sweep_scores o sh X_obs X_int nshuffles
      (thresholds.getD (get_aberrant_thresholds z (1 / 10) 5 (1 / 5))) z)
    z

/-- One iteration of the permutation loop of `process_y_idx_rcd`
(lines 204–212): the score is updated only when the arg-max of the whitened
vector is the last variable (the response). -/
def updateY (s : EF) (Xt : List ℚ) : EF :=
  if idxOfMax Xt = Xt.length - 1 then
    (if EF.lt s (margin_stat Xt) then margin_stat Xt else s)
  else s

/-- The threshold/permutation sweep of `process_y_idx_rcd` (lines 196–214)
on an already-reduced subproblem (`X_obs_new`, `X_int_sample_new`; the Lasso
/ precision-matrix reduction step is library code outside this model).
Faithful to the code, `root_cause_score_y = 0` is executed INSIDE the
threshold loop, so each threshold iteration discards the previous best and
the returned value is the best over the LAST kept threshold only; when the
kept threshold sequence is empty the variable is never bound and the final
`return` raises `UnboundLocalError`, modelled by `none`. -/
def process_y_loop (o : NumOracle) (sh : ℕ → List ℕ → List ℕ)
    (X_obs_new : List (List ℚ)) (X_int_new : List ℚ) (nshuffles : ℕ) : Option EF :=
  let z := zscore_vec X_obs_new X_int_new
  (get_aberrant_thresholds z (1 / 10) 5 (1 / 5)).foldl
    (fun _ t =>
      some ((compute_permutations sh z t nshuffles).foldl
        (fun s perm => updateY s ((root_cause_discovery o X_obs_new X_int_new perm).getD []))
        (EF.fin 0)))
    none

/-- Modelled from the spec: the per-variable sweep of §4.7, which
"sweep[s] thresholds/permutations (§4.2–4.4) … and record[s] the best
margin statistic achieved" — i.e. the accumulator is initialised once
BEFORE the threshold loop and is never reset, so the result is the best
margin over ALL kept thresholds and permutations. -/
def process_y_loop_spec (o : NumOracle) (sh : ℕ → List ℕ → List ℕ)
    (X_obs_new : List (List ℚ)) (X_int_new : List ℚ) (nshuffles : ℕ) : EF :=
  let z := zscore_vec X_obs_new X_int_new
  (get_aberrant_thresholds z (1 / 10) 5 (1 / 5)).foldl
    (fun s t =>
      (compute_permutations sh z t nshuffles).foldl
        (fun s2 perm => updateY s2 ((root_cause_discovery o X_obs_new X_int_new perm).getD []))
        s)
    (EF.fin 0)

/-- `root_cause_discovery_highdim_parallel` (lines 217–248, Algo 3).  The
parallel fan-out `Parallel(...)(delayed(process_y_idx_rcd)(y_idx, ...))` is
modelled by the oracle `proc`, giving for each candidate index its
`(score, subset length)` result; reassembly is keyed by index as in the
code.  Unlike `root_cause_discovery_main`, the all-zero-score case is
guarded here: the raw z-score vector replaces the whole score vector. -/
def root_cause_discovery_highdim_parallel (proc : ℕ → EF × ℕ)
    (X_obs : List (List ℚ)) (X_int : List ℚ) (y_idx_z_threshold : ℚ) :
    List EF × List ℕ :=
  let p := (X_obs.headD []).length
  let z := zscore_vec X_obs X_int
  let y_indices := (List.range z.length).filter
    (fun i => decide (y_idx_z_threshold < z.getD i 0))
  let scores := y_indices.foldl (fun sc y => sc.set y (proc y).1)
    (List.replicate p (EF.fin 0))
  let lens := y_indices.foldl (fun sl y => sl.set y (proc y).2)
    (List.replicate p 0)
  if zeroIdx scores = [] then (scores, lens)
  else if nonzeroIdx scores = [] then (z.map EF.fin, lens)
  else (fallback_scores scores z, lens)

/-- Degenerate shuffle oracle (the identity permutation is one possible
outcome of `random.shuffle`). -/
def idShuffle : ℕ → List ℕ → List ℕ := fun _ l => l

/-- A concrete numerical oracle whose triangular solve always returns `v`
(minimum eigenvalue reported as `1`, so no covariance repair happens). -/
def oracleConst (v : List ℚ) : NumOracle :=
  ⟨id, fun _ => 1, id, fun _ _ => v⟩

/-- 3 × 2 observational matrix whose two columns are `[-1, 0, 1]`:
column means `0`, sample variances `1`. -/
def Xobs3 : List (List ℚ) := [[-1, -1], [0, 0], [1, 1]]

/-- Per-candidate oracle for the high-dimensional orchestrator that gives
every candidate a zero score (and subset size 2). -/
def procZero : ℕ → EF × ℕ := fun _ => (EF.fin 0, 2)

theorem countLe_mono (z : List ℚ) {a b : ℚ} (h : a ≤ b) : countLe z a ≤ countLe z b := by
  unfold countLe
  rw [← List.countP_eq_length_filter, ← List.countP_eq_length_filter]
  refine List.countP_mono_left (fun x _ hx => ?_)
  simp only [decide_eq_true_eq] at hx ⊢
  exact le_trans hx h

theorem arange_pairwise {a b s : ℚ} (hs : 0 < s) : (arange a b s).Pairwise (· < ·) := by
  unfold arange
  simp only [List.pairwise_map]
  refine (List.pairwise_lt_range _).imp (fun {i j} hij => ?_)
  have h2 : (i : ℚ) < j := by exact_mod_cast hij
  nlinarith

theorem gatGo_sublist (z : List ℚ) : ∀ (l : List ℚ) (ct : ℤ), (gatGo z l ct).Sublist l := by
  intro l
  induction l with
  | nil => intro ct; simp [gatGo]
  | cons t rest ih =>
    intro ct
    simp only [gatGo]
    split
    · split
      · exact (ih _).cons₂ _
      · exact (ih _).cons _
    · exact (ih _).cons _

theorem gatGo_mem_ge (z : List ℚ) :
    ∀ (l : List ℚ) (ct : ℤ), ∀ t ∈ gatGo z l ct, 0 < countGe z t := by
  intro l
  induction l with
  | nil => intro ct t ht; simp [gatGo] at ht
  | cons u rest ih =>
    intro ct t ht
    simp only [gatGo] at ht
    split at ht
    · split at ht
      · rcases List.mem_cons.mp ht with h | h
        · subst h; assumption
        · exact ih _ t h
      · exact ih _ t ht
    · exact ih _ t ht

theorem gatGo_counts (z : List ℚ) :
    ∀ (l : List ℚ) (ct : ℤ), l.Pairwise (· ≤ ·) → (∀ t ∈ l, ct ≤ (countLe z t : ℤ)) →
      (∀ t ∈ gatGo z l ct, ct < (countLe z t : ℤ)) ∧
        (gatGo z l ct).Pairwise (fun a b => countLe z a < countLe z b) := by
  intro l
  induction l with
  | nil =>
    intro ct _ _
    exact ⟨fun t ht => by simp [gatGo] at ht, by simp [gatGo]⟩
  | cons u rest ih =>
    intro ct hp hct
    have hhead : ∀ x ∈ rest, u ≤ x := (List.pairwise_cons.mp hp).1
    have htail : rest.Pairwise (· ≤ ·) := (List.pairwise_cons.mp hp).2
    simp only [gatGo]
    split
    · split
      · rename_i hge hne
        have hctu : ct ≤ (countLe z u : ℤ) := hct u (List.mem_cons_self _ _)
        have hlt : ct < (countLe z u : ℤ) := lt_of_le_of_ne hctu (fun e => hne e.symm)
        have hct2 : ∀ x ∈ rest, (countLe z u : ℤ) ≤ (countLe z x : ℤ) := by
          intro x hx
          exact_mod_cast countLe_mono z (hhead x hx)
        obtain ⟨ih1, ih2⟩ := ih (countLe z u) htail hct2
        constructor
        · intro t ht
          rcases List.mem_cons.mp ht with h | h
          · subst h; exact hlt
          · exact lt_trans hlt (ih1 t h)
        · refine List.pairwise_cons.mpr ⟨fun x hx => ?_, ih2⟩
          exact_mod_cast ih1 x hx
      · obtain ⟨ih1, ih2⟩ := ih ct htail (fun x hx => hct x (List.mem_cons_of_mem _ hx))
        exact ⟨ih1, ih2⟩
    · obtain ⟨ih1, ih2⟩ := ih ct htail (fun x hx => hct x (List.mem_cons_of_mem _ hx))
      exact ⟨ih1, ih2⟩

/-- Claim C6, counterexample: with a negative step (`min = 1`, `max = 0`,
`step = −1/2`) and `z = [1]`, `get_aberrant_thresholds` returns `[1, 1/2]`,
which is not in ascending order — the claim quantifies over every
`(min, max, step)` range, but the kept sequence only ascends when the step
is positive. -/
theorem claim_C6_cex :
    get_aberrant_thresholds [1] 1 0 (-(1 / 2)) = [1, 1 / 2] ∧
      ¬ (get_aberrant_thresholds [1] 1 0 (-(1 / 2))).Pairwise (· ≤ ·) := by
  have hc : Int.ceil (((0 : ℚ) - 1) / (-(1 / 2))) = 2 := by
    rw [Int.ceil_eq_iff]; norm_num
  have ha : arange 1 0 (-(1 / 2)) = [1, 1 / 2] := by
    unfold arange
    rw [hc, show (2 : ℤ).toNat = 2 from rfl]
    norm_num [List.range_succ]
  have h : get_aberrant_thresholds [1] 1 0 (-(1 / 2)) = [1, 1 / 2] := by
    unfold get_aberrant_thresholds
    rw [ha]
    norm_num [gatGo, countGe, countLe]
  refine ⟨h, ?_⟩
  rw [h]
  intro hp
  have h2 := (List.pairwise_cons.mp hp).1 (1 / 2) (List.mem_singleton.mpr rfl)
  norm_num at h2

/-- Claim C6 (amended: for a positive step, as in every call site and in the
enumeration `min, min+step, … < max` of §4.2): the kept threshold sequence
is strictly ascending, every kept threshold has at least one variable with
`z ≥ τ`, and no two kept thresholds have the same count of variables with
`z ≤ τ`. -/
theorem claim_C6_thm (z : List ℚ) (tmin tmax step : ℚ) (hstep : 0 < step) :
    (get_aberrant_thresholds z tmin tmax step).Pairwise (· < ·) ∧
      (∀ t ∈ get_aberrant_thresholds z tmin tmax step, ∃ x ∈ z, t ≤ x) ∧
        (get_aberrant_thresholds z tmin tmax step).Pairwise
          (fun a b => countLe z a ≠ countLe z b) := by
  have hpa : (arange tmin tmax step).Pairwise (· < ·) := arange_pairwise hstep
  have hsub : (get_aberrant_thresholds z tmin tmax step).Sublist (arange tmin tmax step) :=
    gatGo_sublist z (arange tmin tmax step) (-1)
  refine ⟨hpa.sublist hsub, ?_, ?_⟩
  · intro t ht
    have hge := gatGo_mem_ge z (arange tmin tmax step) (-1) t ht
    unfold countGe at hge
    obtain ⟨x, hx⟩ := List.exists_mem_of_length_pos hge
    obtain ⟨hxz, hxt⟩ := List.mem_filter.mp hx
    exact ⟨x, hxz, of_decide_eq_true hxt⟩
  · have hcounts := gatGo_counts z (arange tmin tmax step) (-1)
      (hpa.imp le_of_lt)
      (fun t _ => le_trans (by norm_num) (Int.natCast_nonneg _))
    exact hcounts.2.imp (fun h => Nat.ne_of_lt h)

/-- Witness for C6: a concrete positive-step instance. -/
theorem claim_C6_witness :
    (0 : ℚ) < 1 / 4 ∧
      ((get_aberrant_thresholds [1] (1 / 2) 1 (1 / 4)).Pairwise (· < ·) ∧
        (∀ t ∈ get_aberrant_thresholds [1] (1 / 2) 1 (1 / 4), ∃ x ∈ [(1 : ℚ)], t ≤ x) ∧
          (get_aberrant_thresholds [1] (1 / 2) 1 (1 / 4)).Pairwise
            (fun a b => countLe [1] a ≠ countLe [1] b)) :=
  ⟨by norm_num, claim_C6_thm [1] (1 / 2) 1 (1 / 4) (by norm_num)⟩

theorem getD_mem_of_lt (l : List ℕ) (n : ℕ) (h : n < l.length) : l.getD n 0 ∈ l := by
  rw [List.getD_eq_getElem _ _ h]
  exact List.getElem_mem h

theorem swapPos_perm (l : List ℕ) (j : ℕ) (hj : j < l.length) : (swapPos l 0 j).Perm l := by
  cases l with
  | nil => simp at hj
  | cons a tl =>
    cases j with
    | zero => simp [swapPos]
    | succ j =>
      have hj2 : j < tl.length := by simpa using hj
      have h0 : swapPos (a :: tl) 0 (j + 1) = tl.getD j 0 :: tl.set j a := rfl
      have htl : tl.take j ++ tl[j] :: tl.drop (j + 1) = tl := by
        rw [List.getElem_cons_drop]
        exact List.take_append_drop j tl
      have h1 : (tl.take j ++ a :: tl.drop (j + 1)).Perm (a :: (tl.take j ++ tl.drop (j + 1))) :=
        List.perm_middle
      have h3 : (tl[j] :: (tl.take j ++ tl.drop (j + 1))).Perm (tl.take j ++ tl[j] :: tl.drop (j + 1)) :=
        List.perm_middle.symm
      rw [h0, List.getD_eq_getElem _ _ hj2, List.set_eq_take_append_cons_drop, if_pos hj2]
      conv_rhs => rw [← htl]
      exact ((h1.cons _).trans (List.Perm.swap a _ _)).trans (h3.cons a)

theorem swapPos_getD_zero (l : List ℕ) (j : ℕ) (hj : j < l.length) :
    (swapPos l 0 j).getD 0 0 = l.getD j 0 := by
  cases l with
  | nil => simp at hj
  | cons a tl =>
    cases j with
    | zero => rfl
    | succ j => rfl

theorem cpInner_spec (sh : ℕ → List ℕ → List ℕ) (hsh : ∀ n l, (sh n l).Perm l)
    (target : ℕ) :
    ∀ (t : ℕ) (st : ℕ × List ℕ × List ℕ) (N A : List ℕ),
      st.2.1.Perm N → st.2.2.Perm A → target ∈ A →
        ((cpInner sh target t st).1.2.1.Perm N ∧ (cpInner sh target t st).1.2.2.Perm A) ∧
          (cpInner sh target t st).2.length = t ∧
            ∀ q ∈ (cpInner sh target t st).2,
              ∃ u v, q = u ++ v ∧ u.Perm N ∧ v.Perm A ∧ v.getD 0 0 = target := by
  intro t
  induction t with
  | zero =>
    intro st N A h1 h2 _
    exact ⟨⟨h1, h2⟩, rfl, fun q hq => by simp [cpInner] at hq⟩
  | succ t ih =>
    rintro ⟨ctr, nrm, ab⟩ N A h1 h2 htgt
    have hnrm2 : (sh ctr nrm).Perm N := (hsh ctr nrm).trans h1
    have hab2 : (sh (ctr + 1) ab).Perm A := (hsh (ctr + 1) ab).trans h2
    have htgt2 : target ∈ sh (ctr + 1) ab := hab2.mem_iff.mpr htgt
    have hidx : (sh (ctr + 1) ab).indexOf target < (sh (ctr + 1) ab).length :=
      List.indexOf_lt_length.mpr htgt2
    have hab3 : (swapPos (sh (ctr + 1) ab) 0 ((sh (ctr + 1) ab).indexOf target)).Perm A :=
      (swapPos_perm _ _ hidx).trans hab2
    have hhead : (swapPos (sh (ctr + 1) ab) 0 ((sh (ctr + 1) ab).indexOf target)).getD 0 0
        = target := by
      rw [swapPos_getD_zero _ _ hidx, List.getD_eq_getElem _ _ hidx]
      exact List.getElem_indexOf hidx
    obtain ⟨⟨ih1, ih2⟩, ihlen, ihmem⟩ :=
      ih (ctr + 2, sh ctr nrm, swapPos (sh (ctr + 1) ab) 0 ((sh (ctr + 1) ab).indexOf target))
        N A hnrm2 hab3 htgt
    refine ⟨⟨ih1, ih2⟩, ?_, ?_⟩
    · show _ + 1 = t + 1
      rw [ihlen]
    · intro q hq
      rcases List.mem_cons.mp hq with h | h
      · exact ⟨_, _, h, hnrm2, hab3, hhead⟩
      · exact ihmem q h

theorem cpOuter_spec (sh : ℕ → List ℕ → List ℕ) (hsh : ∀ n l, (sh n l).Perm l)
    (abCopy : List ℕ) (k : ℕ) :
    ∀ (idxs : List ℕ) (st : ℕ × List ℕ × List ℕ) (N : List ℕ),
      st.2.1.Perm N → st.2.2.Perm abCopy → (∀ i ∈ idxs, i < abCopy.length) →
        (cpOuter sh abCopy k idxs st).length = idxs.length * k ∧
          ∀ q ∈ cpOuter sh abCopy k idxs st,
            ∃ u v, q = u ++ v ∧ u.Perm N ∧ v.Perm abCopy := by
  intro idxs
  induction idxs with
  | nil =>
    intro st N _ _ _
    exact ⟨by simp [cpOuter], fun q hq => by simp [cpOuter] at hq⟩
  | cons i rest ih =>
    intro st N h1 h2 hbound
    have hi : i < abCopy.length := hbound i (List.mem_cons_self _ _)
    have htgt : abCopy.getD i 0 ∈ abCopy := getD_mem_of_lt _ _ hi
    obtain ⟨⟨s1, s2⟩, ilen, imem⟩ :=
      cpInner_spec sh hsh (abCopy.getD i 0) k st N abCopy h1 h2 htgt
    obtain ⟨rlen, rmem⟩ :=
      ih (cpInner sh (abCopy.getD i 0) k st).1 N s1 s2
        (fun j hj => hbound j (List.mem_cons_of_mem _ hj))
    constructor
    · show ((cpInner sh (abCopy.getD i 0) k st).2
        ++ cpOuter sh abCopy k rest (cpInner sh (abCopy.getD i 0) k st).1).length = _
      rw [List.length_append, ilen, rlen, List.length_cons]
      ring
    · intro q hq
      rcases List.mem_append.mp hq with h | h
      · obtain ⟨u, v, he, hu, hv, _⟩ := imem q h
        exact ⟨u, v, he, hu, hv⟩
      · exact rmem q h

theorem cpOuter_index (sh : ℕ → List ℕ → List ℕ) (hsh : ∀ n l, (sh n l).Perm l)
    (abCopy : List ℕ) (k : ℕ) :
    ∀ (idxs : List ℕ) (st : ℕ × List ℕ × List ℕ) (N : List ℕ),
      st.2.1.Perm N → st.2.2.Perm abCopy → (∀ i ∈ idxs, i < abCopy.length) →
        ∀ n t, n < idxs.length → t < k →
          ∃ u v, (cpOuter sh abCopy k idxs st).getD (n * k + t) [] = u ++ v ∧
            u.Perm N ∧ v.Perm abCopy ∧ v.getD 0 0 = abCopy.getD (idxs.getD n 0) 0 := by
  intro idxs
  induction idxs with
  | nil =>
    intro st N _ _ _ n t hn _
    simp at hn
  | cons i rest ih =>
    intro st N h1 h2 hbound n t hn ht
    have hi : i < abCopy.length := hbound i (List.mem_cons_self _ _)
    have htgt : abCopy.getD i 0 ∈ abCopy := getD_mem_of_lt _ _ hi
    obtain ⟨⟨s1, s2⟩, ilen, imem⟩ :=
      cpInner_spec sh hsh (abCopy.getD i 0) k st N abCopy h1 h2 htgt
    show ∃ u v, ((cpInner sh (abCopy.getD i 0) k st).2
      ++ cpOuter sh abCopy k rest (cpInner sh (abCopy.getD i 0) k st).1).getD (n * k + t) []
        = u ++ v ∧ _
    cases n with
    | zero =>
      have hlt : t < (cpInner sh (abCopy.getD i 0) k st).2.length := by
        rw [ilen]; exact ht
      rw [Nat.zero_mul, Nat.zero_add]
      rw [List.getD_append _ _ _ t hlt]
      have hq : (cpInner sh (abCopy.getD i 0) k st).2.getD t []
          ∈ (cpInner sh (abCopy.getD i 0) k st).2 := by
        rw [List.getD_eq_getElem _ _ hlt]
        exact List.getElem_mem _
      obtain ⟨u, v, he, hu, hv, hhd⟩ := imem _ hq
      exact ⟨u, v, he, hu, hv, hhd⟩
    | succ m =>
      have harith : (m + 1) * k + t = k + (m * k + t) := by ring
      have hlen : (cpInner sh (abCopy.getD i 0) k st).2.length ≤ k + (m * k + t) := by
        rw [ilen]; omega
      rw [harith]
      rw [List.getD_append_right _ _ _ _ hlen]
      rw [ilen, Nat.add_sub_cancel_left]
      exact ih (cpInner sh (abCopy.getD i 0) k st).1 N s1 s2
        (fun j hj => hbound j (List.mem_cons_of_mem _ hj)) m t (by simpa using hn) ht

theorem idx_split_perm (z : List ℚ) (t : ℚ) :
    (idx_normal z t ++ idx_abberent z t).Perm (List.range z.length) := by
  unfold idx_normal idx_abberent
  exact (List.perm_append_comm).trans
    (List.filter_append_perm (fun i => decide (t < z.getD i 0)) (List.range z.length))

/-- Claim C7: for every z-score vector, threshold and shuffle count (over
any shuffle oracle that permutes its input), `compute_permutations` returns
exactly `|aberrant| × nshuffles` permutations, each a bijection on
`{0,…,p−1}` (i.e. a rearrangement of `range p` with no index omitted or
duplicated), and returns the empty list when the aberrant set is empty. -/
theorem claim_C7_thm (sh : ℕ → List ℕ → List ℕ) (z : List ℚ) (threshold : ℚ)
    (k : ℕ) (hsh : ∀ n l, (sh n l).Perm l) :
    (compute_permutations sh z threshold k).length = (idx_abberent z threshold).length * k ∧
      (∀ q ∈ compute_permutations sh z threshold k, q.Perm (List.range z.length)) ∧
        (idx_abberent z threshold = [] → compute_permutations sh z threshold k = []) := by
  unfold compute_permutations
  obtain ⟨hlen, hmem⟩ := cpOuter_spec sh hsh (idx_abberent z threshold) k
    (List.range (idx_abberent z threshold).length)
    (0, idx_normal z threshold, idx_abberent z threshold)
    (idx_normal z threshold) (List.Perm.refl _) (List.Perm.refl _)
    (fun i hi => List.mem_range.mp hi)
  refine ⟨by rw [hlen, List.length_range], ?_, ?_⟩
  · intro q hq
    obtain ⟨u, v, he, hu, hv⟩ := hmem q hq
    subst he
    exact (hu.append hv).trans (idx_split_perm z threshold)
  · intro hab
    rw [hab]
    rfl

/-- Witness for C7 at a concrete input (identity shuffles, `z = [2,2]`,
threshold `1`, one shuffle trial). -/
theorem claim_C7_witness :
    (∀ n l, (idShuffle n l).Perm l) ∧
      ((compute_permutations idShuffle [2, 2] 1 1).length
          = (idx_abberent [2, 2] 1).length * 1 ∧
        (∀ q ∈ compute_permutations idShuffle [2, 2] 1 1, q.Perm (List.range 2)) ∧
          (idx_abberent [2, 2] 1 = [] → compute_permutations idShuffle [2, 2] 1 1 = [])) :=
  ⟨fun _ _ => List.Perm.refl _,
    claim_C7_thm idShuffle [2, 2] 1 1 (fun _ _ => List.Perm.refl _)⟩

/-- Claim C3, counterexample: with `z = [2,2]`, threshold `1`, one trial
and identity shuffles, the permutation emitted for the first target (the
aberrant index `0`) is `[0,1]`: the target is the FIRST element of the
aberrant block (the normal block is empty here), and the LAST element of
the aberrant block is `1 ≠ 0` — refuting "places the target variable as
the LAST element of the aberrant block". -/
theorem claim_C3_cex :
    compute_permutations idShuffle [2, 2] 1 1 = [[0, 1], [1, 0]] ∧
      idx_normal [2, 2] 1 = [] ∧
        (idx_abberent [2, 2] 1).getD 0 0 = 0 ∧
          ([0, 1] : List ℕ).getLastD 0 ≠ (idx_abberent [2, 2] 1).getD 0 0 := by
  decide

/-- Claim C3 (amended: the target is placed FIRST in the aberrant block,
not last; cf. lines 67–69 of the source, which swap the target to position
0 of the shuffled aberrant list).  The permutation emitted for target
number `n` (trial `t`) splits as `u ++ v` with `u` of the length of the
normal set containing only normal indices (`z ≤ threshold`), `v` containing
only aberrant indices (`z > threshold`), and the FIRST element of `v` being
the `n`-th aberrant index. -/
theorem claim_C3_thm (sh : ℕ → List ℕ → List ℕ) (z : List ℚ) (threshold : ℚ)
    (k : ℕ) (hsh : ∀ n l, (sh n l).Perm l) (n t : ℕ)
    (hn : n < (idx_abberent z threshold).length) (ht : t < k) :
    ∃ u v, (compute_permutations sh z threshold k).getD (n * k + t) [] = u ++ v ∧
      (∀ x ∈ u, ¬ threshold < z.getD x 0) ∧
        (∀ x ∈ v, threshold < z.getD x 0) ∧
          u.length = (idx_normal z threshold).length ∧
            v.getD 0 0 = (idx_abberent z threshold).getD n 0 := by
  unfold compute_permutations
  obtain ⟨u, v, he, hu, hv, hhd⟩ := cpOuter_index sh hsh (idx_abberent z threshold) k
    (List.range (idx_abberent z threshold).length)
    (0, idx_normal z threshold, idx_abberent z threshold)
    (idx_normal z threshold) (List.Perm.refl _) (List.Perm.refl _)
    (fun i hi => List.mem_range.mp hi) n t (by simpa using hn) ht
  refine ⟨u, v, he, ?_, ?_, hu.length_eq, ?_⟩
  · intro x hx
    have hx2 := List.mem_filter.mp (hu.mem_iff.mp hx)
    simpa using hx2.2
  · intro x hx
    have hx2 := List.mem_filter.mp (hv.mem_iff.mp hx)
    simpa using hx2.2
  · rw [hhd, List.getD_eq_getElem (List.range _) 0 (by simpa using hn), List.getElem_range]

/-- Witness for the amended C3 at the same concrete input. -/
theorem claim_C3_witness :
    (∀ n l, (idShuffle n l).Perm l) ∧ 0 < (idx_abberent [2, 2] 1).length ∧ 0 < 1 ∧
      ∃ u v, (compute_permutations idShuffle [2, 2] 1 1).getD (0 * 1 + 0) [] = u ++ v ∧
        (∀ x ∈ u, ¬ (1 : ℚ) < ([2, 2] : List ℚ).getD x 0) ∧
          (∀ x ∈ v, (1 : ℚ) < ([2, 2] : List ℚ).getD x 0) ∧
            u.length = (idx_normal [2, 2] 1).length ∧
              v.getD 0 0 = (idx_abberent [2, 2] 1).getD 0 0 :=
  ⟨fun _ _ => List.Perm.refl _, by decide, by decide,
    claim_C3_thm idShuffle [2, 2] 1 1 (fun _ _ => List.Perm.refl _) 0 0 (by decide) (by decide)⟩

theorem getD_map_of_lt {α β : Type} (f : α → β) (l : List α) (d : α) (d2 : β)
    (i : ℕ) (h : i < l.length) : (l.map f).getD i d2 = f (l.getD i d) := by
  rw [List.getD_eq_getElem _ _ (by simpa using h), List.getElem_map,
    List.getD_eq_getElem _ _ h]

theorem map_range_getD (l : List ℕ) :
    (List.range l.length).map (fun i => l.getD i 0) = l := by
  apply List.ext_getElem
  · simp
  · intro i h1 h2
    simp only [List.getElem_map, List.getElem_range]
    exact List.getD_eq_getElem l 0 h2

theorem argsort_perm_range (l : List ℕ) : (argsort l).Perm (List.range l.length) :=
  List.perm_insertionSort _ _

theorem argsort_length (l : List ℕ) : (argsort l).length = l.length := by
  rw [(argsort_perm_range l).length_eq, List.length_range]

theorem argsort_inv (perm : List ℕ) (p : ℕ)
    (hs : List.insertionSort (· ≤ ·) perm = List.range p) :
    ∀ k, k < perm.length → (argsort perm).getD (perm.getD k 0) 0 = k := by
  have hperm : perm.Perm (List.range p) := (hs ▸ List.perm_insertionSort (· ≤ ·) perm).symm
  have hplen : perm.length = p := hperm.length_eq.trans (List.length_range p)
  have hnodup : perm.Nodup := hperm.nodup_iff.mpr (List.nodup_range p)
  have hsorted : List.Sorted (argRel perm) (argsort perm) :=
    List.sorted_insertionSort (argRel perm) (List.range perm.length)
  have hM : (argsort perm).map (fun i => perm.getD i 0) = List.range p := by
    have hp1 : ((argsort perm).map (fun i => perm.getD i 0)).Perm
        ((List.range perm.length).map (fun i => perm.getD i 0)) :=
      (argsort_perm_range perm).map _
    rw [map_range_getD perm] at hp1
    have hs1 : List.Sorted (· ≤ ·) ((argsort perm).map (fun i => perm.getD i 0)) :=
      List.pairwise_map.mpr hsorted
    have hs2 : List.Sorted (· ≤ ·) (List.range p) :=
      (List.pairwise_lt_range p).imp le_of_lt
    exact List.eq_of_perm_of_sorted (hp1.trans hperm) hs1 hs2
  intro k hk
  have hvk : perm.getD k 0 < p := by
    have hm : perm.getD k 0 ∈ perm := getD_mem_of_lt perm k hk
    exact List.mem_range.mp (hperm.mem_iff.mp hm)
  have hvk2 : perm.getD k 0 < (argsort perm).length := by
    rw [argsort_length, hplen]; exact hvk
  have hu : (argsort perm).getD (perm.getD k 0) 0 < perm.length := by
    have hm : (argsort perm).getD (perm.getD k 0) 0 ∈ argsort perm :=
      getD_mem_of_lt _ _ hvk2
    exact List.mem_range.mp ((argsort_perm_range perm).mem_iff.mp hm)
  have hlen2 : perm.getD k 0 < ((argsort perm).map (fun i => perm.getD i 0)).length := by
    rw [List.length_map]; exact hvk2
  have e1 : ((argsort perm).map (fun i => perm.getD i 0)).getD (perm.getD k 0) 0
      = (List.range p).getD (perm.getD k 0) 0 := by rw [hM]
  have hrange : perm.getD k 0 < (List.range p).length := by simpa using hvk
  rw [List.getD_eq_getElem _ 0 hlen2, List.getElem_map,
    ← List.getD_eq_getElem (argsort perm) 0 hvk2,
    List.getD_eq_getElem (List.range p) 0 hrange, List.getElem_range] at e1
  have e2 : perm[(argsort perm).getD (perm.getD k 0) 0] = perm[k] := by
    rw [← List.getD_eq_getElem _ 0 hu, ← List.getD_eq_getElem _ 0 hk]
    exact e1
  exact (hnodup.getElem_inj_iff).mp e2

/-- Claim C9: for any observational matrix, interventional vector of
matching length and valid permutation (and any numerical oracle), the
vector returned by `root_cause_discovery` has length exactly `p`, every
entry is non-negative, and the entries are reported in the original
variable order: position `perm[k]` of the result carries the (absolute)
whitened residual computed at permuted position `k`, i.e. the permutation
is undone by its inverse (`perm.argsort()`) before returning. -/
theorem claim_C9_thm (o : NumOracle) (X_obs : List (List ℚ)) (X_int : List ℚ)
    (perm : List ℕ) (h1 : X_int.length = (X_obs.headD []).length)
    (h2 : List.insertionSort (· ≤ ·) perm = List.range (X_obs.headD []).length) :
    ∃ v, root_cause_discovery o X_obs X_int perm = some v ∧
      v.length = (X_obs.headD []).length ∧
        (∀ x ∈ v, 0 ≤ x) ∧
          ∀ k, k < perm.length →
            v.getD (perm.getD k 0) 0 = |(whitened o X_obs X_int perm).getD k 0| := by
  have hperm : perm.Perm (List.range (X_obs.headD []).length) :=
    (h2 ▸ List.perm_insertionSort (· ≤ ·) perm).symm
  have hplen : perm.length = (X_obs.headD []).length :=
    hperm.length_eq.trans (List.length_range _)
  refine ⟨(argsort perm).map (fun k => |(whitened o X_obs X_int perm).getD k 0|), ?_, ?_, ?_, ?_⟩
  · simp only [root_cause_discovery]
    rw [if_pos]
    exact ⟨h1, h2⟩
  · rw [List.length_map, argsort_length, hplen]
  · intro x hx
    obtain ⟨k, _, hk⟩ := List.mem_map.mp hx
    rw [← hk]
    exact abs_nonneg _
  · intro k hk
    have hvk : perm.getD k 0 < (argsort perm).length := by
      rw [argsort_length]
      have hm : perm.getD k 0 ∈ perm := getD_mem_of_lt perm k hk
      rw [hplen]
      exact List.mem_range.mp (hperm.mem_iff.mp hm)
    have hvk2 : perm.getD k 0
        < ((argsort perm).map (fun k => |(whitened o X_obs X_int perm).getD k 0|)).length := by
      rw [List.length_map]; exact hvk
    rw [List.getD_eq_getElem _ 0 hvk2, List.getElem_map,
      ← List.getD_eq_getElem (argsort perm) 0 hvk, argsort_inv perm _ h2 k hk]

/-- Witness for C9 at a concrete input: `X_obs = Xobs3`, `X_int = [1, 2]`,
`perm = [1, 0]`, oracle `oracleConst [1, 5]`. -/
theorem claim_C9_witness :
    ∃ v, root_cause_discovery (oracleConst [1, 5]) Xobs3 [1, 2] [1, 0] = some v ∧
      v.length = (Xobs3.headD []).length ∧
        (∀ x ∈ v, 0 ≤ x) ∧
          ∀ k, k < ([1, 0] : List ℕ).length →
            v.getD (([1, 0] : List ℕ).getD k 0) 0
              = |(whitened (oracleConst [1, 5]) Xobs3 [1, 2] [1, 0]).getD k 0| :=
  claim_C9_thm (oracleConst [1, 5]) Xobs3 [1, 2] [1, 0] (by decide) (by decide)

/-- Claim C8: inside `root_cause_discovery`, whenever the reported minimum
eigenvalue `m` of the estimated covariance is below `1e-6`, the matrix
handed to the Cholesky factorization is the covariance with the scalar
`|m| + 1e-6` added to EVERY entry (numpy broadcast, not only the diagonal);
otherwise the covariance is used unchanged.  (`whitened` passes
`repair_covariance (o.minEig sigma) sigma` to `o.chol`.) -/
theorem claim_C8_thm (sigma : List (List ℚ)) (m : ℚ) :
    (m < 1 / 1000000 →
      repair_covariance m sigma = addScalar (|m| + 1 / 1000000) sigma ∧
        ∀ i j, i < sigma.length → j < (sigma.getD i []).length →
          ((repair_covariance m sigma).getD i []).getD j 0
            = (sigma.getD i []).getD j 0 + (|m| + 1 / 1000000)) ∧
      (¬ m < 1 / 1000000 → repair_covariance m sigma = sigma) := by
  constructor
  · intro h
    have he : repair_covariance m sigma = addScalar (|m| + 1 / 1000000) sigma := by
      rw [repair_covariance, if_pos h]
    refine ⟨he, ?_⟩
    intro i j hi hj
    rw [he]
    rw [show addScalar (|m| + 1 / 1000000) sigma
      = sigma.map (List.map (fun x => x + (|m| + 1 / 1000000))) from rfl]
    rw [getD_map_of_lt (List.map (fun x => x + (|m| + 1 / 1000000))) sigma [] [] i hi]
    rw [getD_map_of_lt (fun x => x + (|m| + 1 / 1000000)) (sigma.getD i []) 0 0 j hj]
  · intro h
    rw [repair_covariance, if_neg h]

/-- Witness for C8: a below-threshold and an above-threshold minimum
eigenvalue on the 1×1 matrix `[[3]]`. -/
theorem claim_C8_witness :
    repair_covariance 0 [[3]] = addScalar (1 / 1000000) [[3]] ∧
      repair_covariance 1 [[3]] = [[3]] :=
  ⟨by
      have h := ((claim_C8_thm [[3]] 0).1 (by norm_num)).1
      simpa using h,
    (claim_C8_thm [[3]] 1).2 (by norm_num)⟩

theorem arange_mem_ge {a b s : ℚ} (hs : 0 ≤ s) : ∀ t ∈ arange a b s, a ≤ t := by
  intro t ht
  obtain ⟨k, _, hk⟩ := List.mem_map.mp ht
  rw [← hk]
  have : (0 : ℚ) ≤ (k : ℚ) * s := mul_nonneg (Nat.cast_nonneg k) hs
  linarith

theorem gatGo_empty (z : List ℚ) :
    ∀ (l : List ℚ) (ct : ℤ), (∀ t ∈ l, countGe z t = 0) → gatGo z l ct = [] := by
  intro l
  induction l with
  | nil => intro ct _; rfl
  | cons t rest ih =>
    intro ct h
    have h0 : countGe z t = 0 := h t (List.mem_cons_self _ _)
    simp only [gatGo, h0]
    exact ih ct (fun u hu => h u (List.mem_cons_of_mem _ hu))

/-- Claim C10: if the reduced z-score vector yields an empty kept-threshold
sequence from `get_aberrant_thresholds` (for example, when every z-score is
below the minimum candidate threshold `0.1`), the body of the threshold
loop in `process_y_idx_rcd` never runs and the local `root_cause_score_y`
(assigned only inside that loop body) is never bound — the final `return`
raises `UnboundLocalError` instead of producing a `(y_idx, 0, subset-size)`
result.  The crash is modelled by `none`. -/
theorem claim_C10_thm (o : NumOracle) (sh : ℕ → List ℕ → List ℕ)
    (X_obs_new : List (List ℚ)) (X_int_new : List ℚ) (nshuffles : ℕ) :
    (get_aberrant_thresholds (zscore_vec X_obs_new X_int_new) (1 / 10) 5 (1 / 5) = [] →
      process_y_loop o sh X_obs_new X_int_new nshuffles = none) ∧
      ((∀ zi ∈ zscore_vec X_obs_new X_int_new, zi < 1 / 10) →
        get_aberrant_thresholds (zscore_vec X_obs_new X_int_new) (1 / 10) 5 (1 / 5) = []) := by
  constructor
  · intro hth
    simp only [process_y_loop, hth, List.foldl_nil]
  · intro h
    unfold get_aberrant_thresholds
    apply gatGo_empty
    intro t ht
    have hge : (1 : ℚ) / 10 ≤ t := arange_mem_ge (by norm_num) t ht
    unfold countGe
    rw [List.length_eq_zero, List.filter_eq_nil_iff]
    intro x hx
    simp only [decide_eq_true_eq, not_le]
    exact lt_of_lt_of_le (h x hx) hge

/-- Witness for C10: the all-zero z-score instance (interventional sample
equal to the observational mean). -/
theorem claim_C10_witness :
    get_aberrant_thresholds (zscore_vec Xobs3 [0, 0]) (1 / 10) 5 (1 / 5) = [] ∧
      process_y_loop (oracleConst [1, 5]) idShuffle Xobs3 [0, 0] 1 = none := by
  have hz : zscore_vec Xobs3 [0, 0] = [0, 0] := by
    norm_num [zscore_vec, colMeanAt, colVarAt, Xobs3, List.range_succ]
  have h : ∀ zi ∈ zscore_vec Xobs3 [0, 0], zi < 1 / 10 := by
    rw [hz]
    intro zi hzi
    rcases List.mem_cons.mp hzi with hrf | hzi2
    · rw [hrf]; norm_num
    · rcases List.mem_cons.mp hzi2 with hrf | hzi3
      · rw [hrf]; norm_num
      · simp at hzi3
  have hth := (claim_C10_thm (oracleConst [1, 5]) idShuffle Xobs3 [0, 0] 1).2 h
  exact ⟨hth, (claim_C10_thm (oracleConst [1, 5]) idShuffle Xobs3 [0, 0] 1).1 hth⟩

theorem arange_default_eval :
    arange (1 / 10) 5 (1 / 5) =
      [1 / 10, 3 / 10, 1 / 2, 7 / 10, 9 / 10, 11 / 10, 13 / 10, 3 / 2, 17 / 10, 19 / 10,
        21 / 10, 23 / 10, 5 / 2, 27 / 10, 29 / 10, 31 / 10, 33 / 10, 7 / 2, 37 / 10, 39 / 10,
        41 / 10, 43 / 10, 9 / 2, 47 / 10, 49 / 10] := by
  have hc : Int.ceil (((5 : ℚ) - 1 / 10) / (1 / 5)) = 25 := by
    rw [Int.ceil_eq_iff]; norm_num
  unfold arange
  rw [hc, show (25 : ℤ).toNat = 25 from rfl,
    show List.range 25 =
      [0, 1, 2, 3, 4, 5, 6, 7, 8, 9, 10, 11, 12, 13, 14, 15, 16, 17, 18, 19, 20, 21, 22, 23, 24]
      from rfl]
  norm_num

theorem gat_eval_C4 :
    get_aberrant_thresholds [4, 0] (1 / 10) 5 (1 / 5) = [1 / 10] := by
  rw [get_aberrant_thresholds, arange_default_eval]
  norm_num [gatGo, countGe, countLe]

theorem perms_eval_C4 :
    compute_permutations idShuffle [4, 0] (1 / 10) 1 = [[1, 0]] := by
  norm_num [compute_permutations, cpOuter, cpInner, idx_abberent, idx_normal, swapPos,
    idShuffle, List.range_succ, List.indexOf, List.findIdx, List.findIdx.go]

theorem rcd_eval_C4 :
    root_cause_discovery (oracleConst [0, 5]) Xobs3 [2, 0] [1, 0] = some [5, 0] := by
  norm_num [root_cause_discovery, argsort, argRel, whitened, oracleConst, Xobs3,
    List.insertionSort, List.orderedInsert, List.range_succ]

theorem upd_eval_C4 :
    update_score [EF.fin 0, EF.fin 0] [5, 0] = [EF.posInf, EF.fin 0] := by
  norm_num [update_score, margin_stat, sortedAsc, sLast, sPen, idxOfMax, idxOfMaxGo,
    EF.div, EF.lt, List.insertionSort, List.orderedInsert]

theorem fb_eval_C4 :
    apply_fallback [EF.posInf, EF.fin 0] [4, 0] = some [EF.posInf, EF.nan] := by
  decide

/-- Claim C4, counterexample: with `X_obs = Xobs3`, `X_int = [2,0]` and a
solve oracle returning `[0,5]`, the single swept configuration has whitened
vector `[5,0]` — its second-largest sorted value is `0`, so the margin
statistic is non-finite (`5/0 = +∞`) — yet `root_cause_discovery_main`
stores it: the arg-max variable's score becomes `+∞` (`score < inf` is
true in IEEE), and the fallback then turns variable 1's score into `nan`
(`0/0`).  The configuration does NOT contribute nothing. -/
theorem claim_C4_cex :
    root_cause_discovery_main (oracleConst [0, 5]) idShuffle Xobs3 [2, 0] 1 none
        = some [EF.posInf, EF.nan] ∧
      sPen (sortedAsc [5, 0]) = 0 ∧ EF.posInf ≠ EF.fin 0 := by
  refine ⟨?_, by decide, by decide⟩
  have hz : zscore_vec Xobs3 [2, 0] = [4, 0] := by
    norm_num [zscore_vec, colMeanAt, colVarAt, Xobs3, List.range_succ]
  simp only [root_cause_discovery_main]
  rw [hz, Option.getD_none, gat_eval_C4]
  simp only [sweep_scores, List.foldl_cons, List.foldl_nil]
  rw [perms_eval_C4]
  simp only [List.foldl_cons, List.foldl_nil]
  rw [show (Xobs3.headD []).length = 2 from rfl,
    show List.replicate 2 (EF.fin 0) = [EF.fin 0, EF.fin 0] from rfl,
    rcd_eval_C4, show (some [(5 : ℚ), 0]).getD [] = [5, 0] from rfl, upd_eval_C4]
  exact fb_eval_C4

/-- Claim C4 (amended): when the second-largest whitened value is zero the
margin is non-finite; if the largest is positive the margin is `+∞` and it
IS silently stored as the arg-max variable's score (whenever that score is
not already `+∞` or `nan`, since `score < +∞` holds); only when largest and
second-largest are both zero (`0/0 = nan`) does the comparison fail and the
configuration contribute nothing.  In both cases the sweep continues (the
update is a total function); the run is not aborted. -/
theorem claim_C4_thm (scores : List EF) (Xt : List ℚ) :
    (sPen (sortedAsc Xt) = 0 → 0 < sLast (sortedAsc Xt) →
      scores.getD (idxOfMax Xt) EF.nan ≠ EF.posInf →
        scores.getD (idxOfMax Xt) EF.nan ≠ EF.nan →
          update_score scores Xt = scores.set (idxOfMax Xt) EF.posInf) ∧
      (sPen (sortedAsc Xt) = 0 → sLast (sortedAsc Xt) = 0 →
        update_score scores Xt = scores) := by
  constructor
  · intro h0 h1 hj1 hj2
    have hm : margin_stat Xt = EF.posInf := by
      unfold margin_stat
      rw [h0]
      simp only [sub_zero, EF.div]
      rw [if_pos trivial, if_pos h1]
    have hlt : EF.lt (scores.getD (idxOfMax Xt) EF.nan) EF.posInf = true := by
      cases hx : scores.getD (idxOfMax Xt) EF.nan with
      | nan => exact absurd hx hj2
      | negInf => rfl
      | posInf => exact absurd hx hj1
      | fin q => rfl
    simp only [update_score, hm, hlt, if_true]
  · intro h0 h1
    have hm : margin_stat Xt = EF.nan := by
      unfold margin_stat
      rw [h0, h1]
      simp only [sub_zero, EF.div]
      rw [if_pos trivial, if_neg (lt_irrefl 0), if_neg (lt_irrefl 0)]
    have hlt : EF.lt (scores.getD (idxOfMax Xt) EF.nan) EF.nan = false := by
      cases scores.getD (idxOfMax Xt) EF.nan <;> rfl
    simp only [update_score, hm, hlt, Bool.false_eq_true, if_false]

/-- Witness for the amended C4 at a concrete input. -/
theorem claim_C4_witness :
    sPen (sortedAsc [0, 5]) = 0 ∧ 0 < sLast (sortedAsc [0, 5]) ∧
      update_score [EF.fin 0, EF.fin 0] [0, 5]
        = [EF.fin 0, EF.fin 0].set (idxOfMax [0, 5]) EF.posInf :=
  ⟨by decide, by decide,
    (claim_C4_thm [EF.fin 0, EF.fin 0] [0, 5]).1 (by decide) (by decide)
      (by decide) (by decide)⟩

theorem foldl_max_eq_or_mem (xs : List ℚ) : ∀ a, xs.foldl max a = a ∨ xs.foldl max a ∈ xs := by
  induction xs with
  | nil => intro a; left; rfl
  | cons y ys ih =>
    intro a
    rcases ih (max a y) with h | h
    · rcases max_choice a y with hm | hm
      · left; rw [List.foldl_cons, h, hm]
      · right; rw [List.foldl_cons, h, hm]; exact List.mem_cons_self _ _
    · right; exact List.mem_cons_of_mem _ h

theorem le_foldl_max (xs : List ℚ) :
    ∀ a, a ≤ xs.foldl max a ∧ ∀ x ∈ xs, x ≤ xs.foldl max a := by
  induction xs with
  | nil => intro a; exact ⟨le_refl a, fun x hx => absurd hx (List.not_mem_nil x)⟩
  | cons y ys ih =>
    intro a
    obtain ⟨h1, h2⟩ := ih (max a y)
    refine ⟨le_trans (le_max_left a y) h1, ?_⟩
    intro x hx
    rcases List.mem_cons.mp hx with h | h
    · subst h; exact le_trans (le_max_right a x) h1
    · exact h2 x h

theorem qMaxList_mem (l : List ℚ) (h : l ≠ []) : qMaxList l ∈ l := by
  cases l with
  | nil => exact absurd rfl h
  | cons x xs =>
    rcases foldl_max_eq_or_mem xs x with h2 | h2
    · rw [qMaxList, h2]; exact List.mem_cons_self _ _
    · exact List.mem_cons_of_mem _ h2

theorem le_qMaxList (l : List ℚ) (x : ℚ) (hx : x ∈ l) : x ≤ qMaxList l := by
  cases l with
  | nil => exact absurd hx (List.not_mem_nil x)
  | cons y ys =>
    rcases List.mem_cons.mp hx with h | h
    · subst h; exact (le_foldl_max ys x).1
    · exact (le_foldl_max ys y).2 x h

theorem getD_map_range {α : Type} (f : ℕ → α) (d : α) (n i : ℕ) (h : i < n) :
    ((List.range n).map f).getD i d = f i := by
  rw [List.getD_eq_getElem _ _ (by simpa using h), List.getElem_map, List.getElem_range]

/-- Claim C2 (amended, first half): after the sweep, when at least one
score is nonzero and at least one is zero (and the nonzero scores have a
finite positive minimum `m`, and the zero-scored variables have a positive
maximal z-score), every zero-scored variable receives the fallback
`z_i / (max(z[idx2]) / (m/2))`, every other variable keeps its score, the
maximum fallback over the zero-scored variables is exactly `m/2` (attained),
and every fallback is at most `m/2`.  The second half of the original claim
is false: when EVERY score is zero the function does not return the raw
z-scores — `np.min` over the empty `idx1` raises (see the counterexample). -/
theorem claim_C2_thm (scores : List EF) (z : List ℚ) (m : ℚ)
    (h1 : zeroIdx scores ≠ []) (h2 : nonzeroIdx scores ≠ [])
    (hmin : efMinList ((nonzeroIdx scores).map (fun i => scores.getD i EF.nan)) = EF.fin m)
    (hm : 0 < m)
    (hmz : 0 < qMaxList ((zeroIdx scores).map (fun j => z.getD j 0))) :
    ∃ out, apply_fallback scores z = some out ∧
      (∀ i, i < scores.length → scores.getD i EF.nan ≠ EF.fin 0 →
        out.getD i EF.nan = scores.getD i EF.nan) ∧
      (∀ i, i < scores.length → scores.getD i EF.nan = EF.fin 0 →
        out.getD i EF.nan = EF.fin (z.getD i 0
          / (qMaxList ((zeroIdx scores).map (fun j => z.getD j 0)) / (m / 2)))) ∧
      (∃ i, i < scores.length ∧ scores.getD i EF.nan = EF.fin 0 ∧
        out.getD i EF.nan = EF.fin (m / 2)) ∧
      (∀ i, i < scores.length → scores.getD i EF.nan = EF.fin 0 →
        z.getD i 0 / (qMaxList ((zeroIdx scores).map (fun j => z.getD j 0)) / (m / 2))
          ≤ m / 2) := by
  have hmne : qMaxList ((zeroIdx scores).map (fun j => z.getD j 0)) ≠ 0 := ne_of_gt hmz
  have hm2 : m / 2 ≠ 0 := ne_of_gt (by positivity)
  have hdiv1 : EF.div (EF.fin m) (EF.fin 2) = EF.fin (m / 2) := by
    simp only [EF.div]
    rw [if_neg two_ne_zero]
  have hdiv2 : EF.div (EF.fin (qMaxList ((zeroIdx scores).map (fun j => z.getD j 0))))
      (EF.fin (m / 2))
      = EF.fin (qMaxList ((zeroIdx scores).map (fun j => z.getD j 0)) / (m / 2)) := by
    simp only [EF.div]
    rw [if_neg hm2]
  have hc : qMaxList ((zeroIdx scores).map (fun j => z.getD j 0)) / (m / 2) ≠ 0 :=
    div_ne_zero hmne hm2
  have hout : apply_fallback scores z = some (fallback_scores scores z) := by
    rw [apply_fallback, if_neg h1, if_neg h2]
  have hpt : ∀ i, i < scores.length →
      (fallback_scores scores z).getD i EF.nan
        = if scores.getD i EF.nan = EF.fin 0 then
            EF.div (EF.fin (z.getD i 0))
              (EF.div (EF.fin (qMaxList ((zeroIdx scores).map (fun j => z.getD j 0))))
                (EF.div (efMinList ((nonzeroIdx scores).map
                  (fun i => scores.getD i EF.nan))) (EF.fin 2)))
          else scores.getD i EF.nan := by
    intro i hi
    simp only [fallback_scores]
    exact getD_map_range _ _ _ _ hi
  have hval : ∀ i, i < scores.length → scores.getD i EF.nan = EF.fin 0 →
      (fallback_scores scores z).getD i EF.nan
        = EF.fin (z.getD i 0
            / (qMaxList ((zeroIdx scores).map (fun j => z.getD j 0)) / (m / 2))) := by
    intro i hi hz0
    rw [hpt i hi, if_pos hz0, hmin, hdiv1, hdiv2]
    simp only [EF.div]
    rw [if_neg hc]
  refine ⟨fallback_scores scores z, hout, ?_, hval, ?_, ?_⟩
  · intro i hi hne
    rw [hpt i hi, if_neg hne]
  · have hnil : (zeroIdx scores).map (fun j => z.getD j 0) ≠ [] := by
      intro hcon
      exact h1 (List.map_eq_nil_iff.mp hcon)
    have hmem := qMaxList_mem _ hnil
    obtain ⟨i, hi_mem, hival⟩ := List.mem_map.mp hmem
    have hilen : i < scores.length := by
      have := (List.mem_filter.mp hi_mem).1
      simpa using this
    have hiz : scores.getD i EF.nan = EF.fin 0 := by
      have := (List.mem_filter.mp hi_mem).2
      simpa using this
    refine ⟨i, hilen, hiz, ?_⟩
    rw [hval i hilen hiz, hival]
    have hcancel : qMaxList ((zeroIdx scores).map (fun j => z.getD j 0))
        / (qMaxList ((zeroIdx scores).map (fun j => z.getD j 0)) / (m / 2)) = m / 2 := by
      rw [div_div_eq_mul_div, mul_div_cancel_left₀ _ hmne]
    rw [hcancel]
  · intro i hi hz0
    have himem : i ∈ zeroIdx scores := by
      refine List.mem_filter.mpr ⟨List.mem_range.mpr hi, ?_⟩
      simp only [decide_eq_true_eq]
      exact hz0
    have hle : z.getD i 0 ≤ qMaxList ((zeroIdx scores).map (fun j => z.getD j 0)) :=
      le_qMaxList _ _ (List.mem_map.mpr ⟨i, himem, rfl⟩)
    have hcpos : 0 < qMaxList ((zeroIdx scores).map (fun j => z.getD j 0)) / (m / 2) :=
      div_pos hmz (by positivity)
    have hcancel : qMaxList ((zeroIdx scores).map (fun j => z.getD j 0))
        / (qMaxList ((zeroIdx scores).map (fun j => z.getD j 0)) / (m / 2)) = m / 2 := by
      rw [div_div_eq_mul_div, mul_div_cancel_left₀ _ hmne]
    calc z.getD i 0 / (qMaxList ((zeroIdx scores).map (fun j => z.getD j 0)) / (m / 2))
        ≤ qMaxList ((zeroIdx scores).map (fun j => z.getD j 0))
          / (qMaxList ((zeroIdx scores).map (fun j => z.getD j 0)) / (m / 2)) :=
          (div_le_div_iff_of_pos_right hcpos).mpr hle
      _ = m / 2 := hcancel

/-- Witness for the amended C2 at a concrete input
(`scores = [4, 0]`, `z = [4, 1]`, minimum nonzero score `m = 4`). -/
theorem claim_C2_witness :
    ∃ out, apply_fallback [EF.fin 4, EF.fin 0] [4, 1] = some out ∧
      (∀ i, i < ([EF.fin 4, EF.fin 0] : List EF).length →
        ([EF.fin 4, EF.fin 0] : List EF).getD i EF.nan ≠ EF.fin 0 →
          out.getD i EF.nan = ([EF.fin 4, EF.fin 0] : List EF).getD i EF.nan) ∧
      (∀ i, i < ([EF.fin 4, EF.fin 0] : List EF).length →
        ([EF.fin 4, EF.fin 0] : List EF).getD i EF.nan = EF.fin 0 →
          out.getD i EF.nan = EF.fin (([4, 1] : List ℚ).getD i 0
            / (qMaxList ((zeroIdx [EF.fin 4, EF.fin 0]).map
                (fun j => ([4, 1] : List ℚ).getD j 0)) / (4 / 2)))) ∧
      (∃ i, i < ([EF.fin 4, EF.fin 0] : List EF).length ∧
        ([EF.fin 4, EF.fin 0] : List EF).getD i EF.nan = EF.fin 0 ∧
          out.getD i EF.nan = EF.fin (4 / 2)) ∧
      (∀ i, i < ([EF.fin 4, EF.fin 0] : List EF).length →
        ([EF.fin 4, EF.fin 0] : List EF).getD i EF.nan = EF.fin 0 →
          ([4, 1] : List ℚ).getD i 0
            / (qMaxList ((zeroIdx [EF.fin 4, EF.fin 0]).map
                (fun j => ([4, 1] : List ℚ).getD j 0)) / (4 / 2)) ≤ 4 / 2) :=
  claim_C2_thm [EF.fin 4, EF.fin 0] [4, 1] 4 (by decide) (by decide) (by decide)
    (by decide) (by decide)

/-- Claim C2, counterexample to its second half: with `X_int` equal to the
observational mean all z-scores are `0`, no threshold is kept, every score
stays zero after the sweep — and `root_cause_discovery_main` does NOT
return the raw z-score vector: it crashes (`np.min` over the empty `idx1`
raises `ValueError`, modelled by `none`). -/
theorem claim_C2_cex :
    root_cause_discovery_main (oracleConst [1, 5]) idShuffle Xobs3 [0, 0] 1 none = none ∧
      (none : Option (List EF)) ≠ some ((zscore_vec Xobs3 [0, 0]).map EF.fin) := by
  have hz : zscore_vec Xobs3 [0, 0] = [0, 0] := by
    norm_num [zscore_vec, colMeanAt, colVarAt, Xobs3, List.range_succ]
  have hth : get_aberrant_thresholds [0, 0] (1 / 10) 5 (1 / 5) = [] := by
    unfold get_aberrant_thresholds
    apply gatGo_empty
    intro t ht
    have hge : (1 : ℚ) / 10 ≤ t := arange_mem_ge (by norm_num) t ht
    unfold countGe
    rw [List.length_eq_zero, List.filter_eq_nil_iff]
    intro x hx
    rcases List.mem_cons.mp hx with h | h
    · subst h; simp only [decide_eq_true_eq, not_le]; linarith
    · rcases List.mem_cons.mp h with h2 | h2
      · subst h2; simp only [decide_eq_true_eq, not_le]; linarith
      · simp at h2
  constructor
  · simp only [root_cause_discovery_main]
    rw [hz, Option.getD_none, hth]
    simp only [sweep_scores, List.foldl_nil]
    rw [show (Xobs3.headD []).length = 2 from rfl,
      show List.replicate 2 (EF.fin 0) = [EF.fin 0, EF.fin 0] from rfl]
    decide
  · rw [hz]
    decide

theorem zscore_vec_length (X_obs : List (List ℚ)) (X_int : List ℚ) :
    (zscore_vec X_obs X_int).length = X_int.length := by
  simp [zscore_vec]

theorem set_replicate_self {α : Type} (n i : ℕ) (a : α) :
    (List.replicate n a).set i a = List.replicate n a := by
  apply List.ext_getElem
  · simp
  · intro j h1 h2
    rw [List.getElem_set]
    split
    · rw [List.getElem_replicate]
    · rfl

theorem foldl_set_zero (proc : ℕ → EF × ℕ) (p : ℕ) :
    ∀ l : List ℕ, (∀ y ∈ l, (proc y).1 = EF.fin 0) →
      l.foldl (fun sc y => sc.set y (proc y).1) (List.replicate p (EF.fin 0))
        = List.replicate p (EF.fin 0) := by
  intro l
  induction l with
  | nil => intro _; rfl
  | cons y ys ih =>
    intro h
    rw [List.foldl_cons, h y (List.mem_cons_self _ _), set_replicate_self]
    exact ih (fun u hu => h u (List.mem_cons_of_mem _ hu))

theorem getD_replicate_fin (p i : ℕ) (hi : i < p) :
    (List.replicate p (EF.fin 0)).getD i EF.nan = EF.fin 0 := by
  rw [List.getD_eq_getElem _ _ (by simpa using hi), List.getElem_replicate]

theorem zeroIdx_replicate (p : ℕ) :
    zeroIdx (List.replicate p (EF.fin 0)) = List.range p := by
  unfold zeroIdx
  rw [List.length_replicate]
  apply List.filter_eq_self.mpr
  intro i hi
  rw [decide_eq_true_eq]
  exact getD_replicate_fin p i (List.mem_range.mp hi)

theorem nonzeroIdx_replicate (p : ℕ) :
    nonzeroIdx (List.replicate p (EF.fin 0)) = [] := by
  unfold nonzeroIdx
  rw [List.length_replicate, List.filter_eq_nil_iff]
  intro i hi
  rw [getD_replicate_fin p i (List.mem_range.mp hi)]
  simp

/-- Claim C5 (amended): in `root_cause_discovery_highdim_parallel`, if no
candidate ever achieves a positive score (all per-candidate scores are
zero), the returned score vector equals the raw z-score vector for ALL
variables — `root_cause_score = z` replaces the whole vector, so
non-candidate variables receive their (generally nonzero) z-scores as
well, not a score of exactly zero. -/
theorem claim_C5_thm (proc : ℕ → EF × ℕ) (X_obs : List (List ℚ)) (X_int : List ℚ)
    (y_thresh : ℚ) (hp : X_int.length = (X_obs.headD []).length)
    (hzero : ∀ y ∈ (List.range (zscore_vec X_obs X_int).length).filter
      (fun i => decide (y_thresh < (zscore_vec X_obs X_int).getD i 0)),
        (proc y).1 = EF.fin 0) :
    (root_cause_discovery_highdim_parallel proc X_obs X_int y_thresh).1
      = (zscore_vec X_obs X_int).map EF.fin := by
  simp only [root_cause_discovery_highdim_parallel]
  rw [foldl_set_zero proc _ _ hzero, zeroIdx_replicate, nonzeroIdx_replicate]
  rcases Nat.eq_zero_or_pos (X_obs.headD []).length with h0 | hpos
  · rw [h0]
    rw [if_pos rfl]
    have hxi : X_int = [] := List.length_eq_zero.mp (hp.trans h0)
    subst hxi
    rfl
  · rw [if_neg (by
      intro hcon
      rw [List.range_eq_nil] at hcon
      omega), if_pos rfl]

/-- Witness for the amended C5: one candidate (variable 0, z-score 4),
whose score is zero — the returned vector is the full z-score vector. -/
theorem claim_C5_witness :
    (root_cause_discovery_highdim_parallel procZero Xobs3 [2, 1] 1).1
      = (zscore_vec Xobs3 [2, 1]).map EF.fin :=
  claim_C5_thm procZero Xobs3 [2, 1] 1 (by decide) (fun y _ => rfl)

/-- Claim C5, counterexample: `z = [4, 1]`, candidacy threshold `1`, so
variable 1 (z-score 1, not exceeding the threshold) is a non-candidate; the
single candidate (variable 0) scores zero.  The returned vector is
`[4, 1]` — the non-candidate receives score `1 ≠ 0`, refuting "every
non-candidate variable keeps a score of exactly zero". -/
theorem claim_C5_cex :
    (root_cause_discovery_highdim_parallel procZero Xobs3 [2, 1] 1).1
        = [EF.fin 4, EF.fin 1] ∧
      zscore_vec Xobs3 [2, 1] = [4, 1] ∧ ¬ ((1 : ℚ) < 1) ∧ EF.fin 1 ≠ EF.fin 0 := by
  have hz : zscore_vec Xobs3 [2, 1] = [4, 1] := by
    norm_num [zscore_vec, colMeanAt, colVarAt, Xobs3, List.range_succ]
  refine ⟨?_, hz, by norm_num, by decide⟩
  simp only [root_cause_discovery_highdim_parallel]
  rw [hz]
  decide

theorem z_eval_C1 : zscore_vec Xobs3 [2, 1 / 2] = [4, 1 / 4] := by
  norm_num [zscore_vec, colMeanAt, colVarAt, Xobs3, List.range_succ]

theorem gat_eval_C1 :
    get_aberrant_thresholds [4, 1 / 4] (1 / 10) 5 (1 / 5) = [1 / 10, 3 / 10] := by
  rw [get_aberrant_thresholds, arange_default_eval]
  norm_num [gatGo, countGe, countLe]

theorem perms_eval_C1a :
    compute_permutations idShuffle [4, 1 / 4] (1 / 10) 1 = [[0, 1], [1, 0]] := by
  norm_num [compute_permutations, cpOuter, cpInner, idx_abberent, idx_normal, swapPos,
    idShuffle, List.range_succ, List.indexOf, List.findIdx, List.findIdx.go]
  try decide

theorem perms_eval_C1b :
    compute_permutations idShuffle [4, 1 / 4] (3 / 10) 1 = [[1, 0]] := by
  norm_num [compute_permutations, cpOuter, cpInner, idx_abberent, idx_normal, swapPos,
    idShuffle, List.range_succ, List.indexOf, List.findIdx, List.findIdx.go]

theorem rcd_eval_C1a :
    root_cause_discovery (oracleConst [1, 5]) Xobs3 [2, 1 / 2] [0, 1] = some [1, 5] := by
  norm_num [root_cause_discovery, argsort, argRel, whitened, oracleConst, Xobs3,
    List.insertionSort, List.orderedInsert, List.range_succ]

theorem rcd_eval_C1b :
    root_cause_discovery (oracleConst [1, 5]) Xobs3 [2, 1 / 2] [1, 0] = some [5, 1] := by
  norm_num [root_cause_discovery, argsort, argRel, whitened, oracleConst, Xobs3,
    List.insertionSort, List.orderedInsert, List.range_succ]

theorem updY_eval_1 : updateY (EF.fin 0) [1, 5] = EF.fin 4 := by
  norm_num [updateY, margin_stat, sortedAsc, sLast, sPen, idxOfMax, idxOfMaxGo,
    EF.div, EF.lt, List.insertionSort, List.orderedInsert]

theorem updY_eval_2 : updateY (EF.fin 0) [5, 1] = EF.fin 0 := by
  norm_num [updateY, margin_stat, sortedAsc, sLast, sPen, idxOfMax, idxOfMaxGo,
    EF.div, EF.lt, List.insertionSort, List.orderedInsert]

theorem updY_eval_3 : updateY (EF.fin 4) [5, 1] = EF.fin 4 := by
  norm_num [updateY, margin_stat, sortedAsc, sLast, sPen, idxOfMax, idxOfMaxGo,
    EF.div, EF.lt, List.insertionSort, List.orderedInsert]

/-- Claim C1: FALSE of the code — `process_y_idx_rcd` resets
`root_cause_score_y = 0` INSIDE the threshold loop (line 203), so the value
returned is the best margin over the permutations of the LAST kept
threshold only, not over the whole sweep.  At this concrete input (reduced
problem `Xobs3`, `[2, 1/2]`, whitening oracle returning `[1, 5]`, identity
shuffles, kept thresholds `[0.1, 0.3]`) the first threshold achieves margin
`4` with the response variable as arg-max, but the code returns `0`
because the last threshold's only permutation has arg-max elsewhere; the
spec-modelled accumulator (`process_y_loop_spec`, initialised once before
the loop) returns `4` as claim C1 states. -/
theorem claim_C1_thm :
    process_y_loop (oracleConst [1, 5]) idShuffle Xobs3 [2, 1 / 2] 1 = some (EF.fin 0) ∧
      process_y_loop_spec (oracleConst [1, 5]) idShuffle Xobs3 [2, 1 / 2] 1 = EF.fin 4 := by
  constructor
  · simp only [process_y_loop]
    rw [z_eval_C1, gat_eval_C1]
    simp only [List.foldl_cons, List.foldl_nil]
    rw [perms_eval_C1b]
    simp only [List.foldl_cons, List.foldl_nil]
    rw [rcd_eval_C1b, show (some [(5 : ℚ), 1]).getD [] = [5, 1] from rfl, updY_eval_2]
  · simp only [process_y_loop_spec]
    rw [z_eval_C1, gat_eval_C1]
    simp only [List.foldl_cons, List.foldl_nil]
    rw [perms_eval_C1a, perms_eval_C1b]
    simp only [List.foldl_cons, List.foldl_nil]
    rw [rcd_eval_C1a, show (some [(1 : ℚ), 5]).getD [] = [1, 5] from rfl, updY_eval_1]
    rw [rcd_eval_C1b, show (some [(5 : ℚ), 1]).getD [] = [5, 1] from rfl]
    simp only [updY_eval_3]
